import Mathlib

/-
Verification model of the SROA pass in src/SROA.cpp (an LLVM
scalar-replacement-of-aggregates function pass).  The relevant parts of the
pass are embedded shallowly: LLVM types become an inductive type, the use
graph of an alloca becomes a tree of user instructions, and each static
function of the source (isPromotable, isPromotableAlloca, ExtractOffsets,
AnalyzeAlloca, RunOnFunction) becomes an executable Lean definition with the
same control flow.  Operations that abort in the source (out-of-range operand
access, failing cast or assert, null dereference) are modelled by Option,
with none standing for the crash.
-/

set_option maxHeartbeats 1000000

namespace SROAModel

/-- LLVM types as the pass distinguishes them: scalar types (integer,
floating point, pointer) and the composite types (struct, fixed array,
vector).  A pointer carries its pointee type and address space, matching the
typed-pointer LLVM version the source targets. -/
inductive LLVMType : Type where
  | int (bits : Nat)
  | float
  | ptr (pointee : LLVMType) (addrspace : Nat)
  | struct (fields : List LLVMType)
  | array (n : Nat) (elem : LLVMType)
  | vector (n : Nat) (elem : LLVMType)

/-- Models Type::isIntOrIntVectorTy. -/
def isIntOrIntVectorTy : LLVMType → Bool
  | .int _ => true
  | .vector _ (.int _) => true
  | _ => false

/-- Models Type::isFPOrFPVectorTy. -/
def isFPOrFPVectorTy : LLVMType → Bool
  | .float => true
  | .vector _ .float => true
  | _ => false

/-- Models Type::isPtrOrPtrVectorTy. -/
def isPtrOrPtrVectorTy : LLVMType → Bool
  | .ptr _ _ => true
  | .vector _ (.ptr _ _) => true
  | _ => false

/-- Models Type::isPointerTy. -/
def isPointerTy : LLVMType → Bool
  | .ptr _ _ => true
  | _ => false

/-- Models isa CompositeType: in the LLVM version of the source, composite
types are structs and the sequential types (arrays and vectors). -/
def isCompositeTy : LLVMType → Bool
  | .struct _ => true
  | .array _ _ => true
  | .vector _ _ => true
  | _ => false

/-- Models isa SequentialType: arrays and vectors. -/
def isSequentialTy : LLVMType → Bool
  | .array _ _ => true
  | .vector _ _ => true
  | _ => false

/-- Models SequentialType::getNumElements for arrays and vectors. -/
def seqNumElements : LLVMType → Nat
  | .array n _ => n
  | .vector n _ => n
  | _ => 0

mutual
/-- Modelled from the spec: the total storage size of a type, standing in for
the external DataLayout service (DL.getTypeAllocSize), which is not part of
this repository.  Only zero versus nonzero matters to the pass; alignment
padding, which can only increase a size, is ignored. -/
def allocSize : LLVMType → Nat
  | .int bits => (bits + 7) / 8
  | .float => 4
  | .ptr _ _ => 8
  | .struct fields => allocSizeList fields
  | .array n e => n * allocSize e
  | .vector n e => n * allocSize e

def allocSizeList : List LLVMType → Nat
  | [] => 0
  | t :: ts => allocSize t + allocSizeList ts
end

mutual
/-- Structural nesting depth of a type; scalars have depth one.  This is the
measure that shrinks when the Splitter replaces an aggregate location by
per-field locations. -/
def depth : LLVMType → Nat
  | .int _ => 1
  | .float => 1
  | .ptr _ _ => 1
  | .struct fields => 1 + depthList fields
  | .array _ e => 1 + depth e
  | .vector _ e => 1 + depth e

def depthList : List LLVMType → Nat
  | [] => 0
  | t :: ts => max (depth t) (depthList ts)
end

/-- A GEP index operand: a compile-time-constant integer (recorded by its
zero-extended value, as read by ConstantInt::getZExtValue) or anything else. -/
inductive Operand : Type where
  | const (v : Nat)
  | nonconst

/-- One user instruction of an inspected value, carrying exactly the data the
classifiers read.  A load records its volatile flag.  A store records its
volatile flag and whether its value operand (operand 0) is the inspected
value itself.  A GEP records its result type, its index operands (the source
reads them as getOperand 1, getOperand 2, so index list position 0 is operand
1) and its own users.  A bitcast records its users.  An intrinsic call
records whether it is a lifetime start or end marker.  Every other user
instruction falls into the catch-all. -/
inductive Use : Type where
  | load (volatile : Bool)
  | store (volatile : Bool) (valueIsSelf : Bool)
  | gep (resTy : LLVMType) (indices : List Operand) (users : List Use)
  | icmp
  | bitcast (users : List Use)
  | intrin (lifetime : Bool)
  | other

/-- Models llvm::onlyUsedByLifetimeMarkers: every user is a lifetime
start/end intrinsic. -/
def onlyUsedByLifetimeMarkers (users : List Use) : Bool :=
  users.all fun u =>
    match u with
    | .intrin lifetime => lifetime
    | _ => false

/-- Models the loose use classifier isPromotable (SROA.cpp lines 109-163).
The first argument records whether the inspected instruction is itself a
GetElementPtrInst (the classifier recurses into GEPs, and its ICmp case asks
isa GetElementPtrInst of the inspected instruction).  The result none models
a crash: reading getOperand 2 of a GEP that has fewer than two index
operands is an out-of-range operand access, and dereferencing the result of
dyn_cast PointerType on a non-pointer GEP result type is a null dereference.
The source checks the two index operands with a short-circuit disjunction,
so a non-constant first index returns false before operand 2 is touched;
the index list is inspected by its first two entries accordingly. -/
def isPromotable (subjGep : Bool) : List Use → Option Bool
  | [] => some true
  | u :: rest =>
    match u with
    | .load volatile =>
      if volatile then some false else isPromotable subjGep rest
    | .store volatile valueIsSelf =>
      if valueIsSelf || volatile then some false else isPromotable subjGep rest
    | .gep rt idxs gus =>
      match idxs with
      | [] => none
      | Operand.nonconst :: _ => some false
      | [Operand.const _] => none
      | Operand.const _ :: Operand.nonconst :: _ => some false
      | Operand.const _ :: Operand.const _ :: _ =>
        match rt with
        | .ptr pointee _ =>
          if isPointerTy pointee then isPromotable subjGep rest
          else
            match isPromotable true gus with
            | none => none
            | some false => some false
            | some true => isPromotable subjGep rest
        | _ => none
    | .icmp =>
      if subjGep then isPromotable subjGep rest else some false
    | .bitcast bus =>
      if onlyUsedByLifetimeMarkers bus then isPromotable subjGep rest else some false
    | .intrin lifetime =>
      if lifetime then isPromotable subjGep rest else some false
    | .other => some false
termination_by l => sizeOf l

/-- A stack allocation: its allocated type, address space, and users.  The id
stands for the object identity of the AllocaInst (pointer identity in the
source); the driver compares worklist entries by it. -/
structure AllocaInst where
  id : Nat
  allocatedType : LLVMType
  addrspace : Nat
  users : List Use

/-- Models GetElementPtrInst::hasAllZeroIndices. -/
def hasAllZeroIndices (idxs : List Operand) : Bool :=
  idxs.all fun i =>
    match i with
    | .const 0 => true
    | _ => false

/-- Is this type the i8 pointer type in the given address space?  Models the
comparison of a GEP result type against Type::getInt8PtrTy. -/
def isInt8PtrOf : LLVMType → Nat → Bool
  | .ptr (.int 8) a1, a2 => a1 == a2
  | _, _ => false

/-- The user loop of the strict classifier isPromotableAlloca (SROA.cpp
lines 173-212), parameterised by the address space of the alloca (used to
build the i8 pointer type the GEP result is compared against). -/
def strictUses (a1 : Nat) : List Use → Bool
  | [] => true
  | u :: rest =>
    match u with
    | .load volatile =>
      if volatile then false else strictUses a1 rest
    | .store volatile valueIsSelf =>
      if valueIsSelf || volatile then false else strictUses a1 rest
    | .gep rt idxs gus =>
      if !isInt8PtrOf rt a1 then false
      else if !hasAllZeroIndices idxs then false
      else if !onlyUsedByLifetimeMarkers gus then false
      else strictUses a1 rest
    | .bitcast bus =>
      if onlyUsedByLifetimeMarkers bus then strictUses a1 rest else false
    | .intrin lifetime =>
      if lifetime then strictUses a1 rest else false
    | .icmp => false
    | .other => false

/-- Models the strict classifier isPromotableAlloca (SROA.cpp lines 166-214).
The source assesses AI->getType(), which is the pointer type of the alloca
itself, not the allocated type; the guard is translated exactly as written. -/
def isPromotableAlloca (AI : AllocaInst) : Bool :=
  let AITy := LLVMType.ptr AI.allocatedType AI.addrspace
  if !isIntOrIntVectorTy AITy && !isFPOrFPVectorTy AITy && !isPtrOrPtrVectorTy AITy then
    false
  else
    strictUses AI.addrspace AI.users

/-- The users of a GEP instruction (empty for every other instruction). -/
def gepChildren : Use → List Use
  | .gep _ _ us => us
  | _ => []

/-- Is this user a GetElementPtrInst? -/
def isGepU : Use → Bool
  | .gep _ _ _ => true
  | _ => false

/-- The second index operand of a GEP (the source reads it as getOperand 2),
when it exists and is a constant. -/
def sndIndexConst : Use → Option Nat
  | .gep _ idxs _ =>
    match idxs with
    | _ :: Operand.const c :: _ => some c
    | _ => none
  | _ => none

/-- Insertion into the offset map: an ordered association list from constant
offset to the GEPs using that offset, modelling std::map with push_back on
the mapped vector.  Keys stay strictly ascending; a GEP is appended at the
end of its group. -/
def insertOffset : List (Nat × List Use) → Nat → Use → List (Nat × List Use)
  | [], c, g => [(c, [g])]
  | (k, gs) :: rest, c, g =>
    if c < k then (c, [g]) :: (k, gs) :: rest
    else if c = k then (k, gs ++ [g]) :: rest
    else (k, gs) :: insertOffset rest c g

/-- Models ExtractOffsets (SROA.cpp lines 226-234): walk the users of the
alloca and group every GEP user by the zero-extended value of its second
index operand.  The source applies cast ConstantInt to getOperand 2 of every
GEP user unconditionally, so a GEP with fewer than two index operands or a
non-constant second index aborts; that is the none case. -/
def ExtractOffsets : List Use → List (Nat × List Use) → Option (List (Nat × List Use))
  | [], m => some m
  | u :: rest, m =>
    match u with
    | .gep _ idxs _ =>
      match idxs with
      | _ :: Operand.const c :: _ => ExtractOffsets rest (insertOffset m c u)
      | _ => none
    | _ => ExtractOffsets rest m

/-- The element type created for one offset group (SROA.cpp lines 292-302):
the element type if the allocated type is sequential, otherwise the
composite type at that index; getTypeAtIndex asserts on an out-of-range
struct index, modelled by none, as is the assert on the dyn_cast result for
a non-composite type. -/
def fieldTypeAt : LLVMType → Nat → Option LLVMType
  | .array _ e, _ => some e
  | .vector _ e, _ => some e
  | .struct fields, k => fields[k]?
  | _, _ => none

/-- Concatenation of the users of a list of GEPs: after every GEP of a group
is redirected with replaceAllUsesWith, these become the users of the new
alloca created for the group. -/
def concatChildren : List Use → List Use
  | [] => []
  | g :: gs => gepChildren g ++ concatChildren gs

mutual
/-- Number of user nodes in a use tree, counting the node itself. -/
def useCount : Use → Nat
  | .gep _ _ us => 1 + useListCount us
  | .bitcast us => 1 + useListCount us
  | _ => 1

def useListCount : List Use → Nat
  | [] => 0
  | u :: us => useCount u + useListCount us
end

/-- The outcome of one AnalyzeAlloca call on one candidate location:
the returned change flag, the new per-field allocas pushed onto the
worklist, the allocas pushed onto the try-promote list, whether the original
alloca was erased from the function, the offset groups paired with the new
alloca each group was redirected to, the list of user instructions erased
from the function by the call (the source erases no instruction other than
the original alloca, so this is always empty), and the next fresh id. -/
structure SplitResult where
  changed : Bool
  newAllocas : List AllocaInst
  tryPromote : List AllocaInst
  erased : Bool
  splitPairs : List ((Nat × List Use) × AllocaInst)
  erasedUses : List Use
  nextId : Nat

/-- Creation of the new allocas, one per offset group in ascending offset
order (SROA.cpp lines 286-316): each group gets a fresh alloca of the field
type at its offset, in the address space of the original, whose users are
the users of the redirected GEPs of the group. -/
def buildPairs (AI : AllocaInst) :
    List (Nat × List Use) → Nat → Option (List ((Nat × List Use) × AllocaInst))
  | [], _ => some []
  | (c, gs) :: rest, n =>
    match fieldTypeAt AI.allocatedType c with
    | none => none
    | some fty =>
      match buildPairs AI rest (n + 1) with
      | none => none
      | some ps => some (((c, gs), ⟨n, fty, AI.addrspace, concatChildren gs⟩) :: ps)

/-- Models AnalyzeAlloca (SROA.cpp lines 236-325), the Splitter: erase a
use-less alloca; decline a non-composite non-sequential type onto the
try-promote list; decline a sequential type of more than five elements
without pushing it anywhere; decline a zero-storage-size type onto the
try-promote list; decline a loose-classifier reject onto the try-promote
list; otherwise extract offset groups, create one new alloca per group,
redirect the GEPs of each group to it, erase the original if at least one
group existed, and return true. -/
def AnalyzeAlloca (AI : AllocaInst) (nid : Nat) : Option SplitResult :=
  if AI.users.isEmpty then
    some ⟨true, [], [], true, [], [], nid⟩
  else if !isCompositeTy AI.allocatedType && !isSequentialTy AI.allocatedType then
    some ⟨false, [], [AI], false, [], [], nid⟩
  else if isSequentialTy AI.allocatedType && decide (seqNumElements AI.allocatedType > 5) then
    some ⟨false, [], [], false, [], [], nid⟩
  else if allocSize AI.allocatedType = 0 then
    some ⟨false, [], [AI], false, [], [], nid⟩
  else
    match isPromotable false AI.users with
    | none => none
    | some false => some ⟨false, [], [AI], false, [], [], nid⟩
    | some true =>
      match ExtractOffsets AI.users [] with
      | none => none
      | some groups =>
        match buildPairs AI groups nid with
        | none => none
        | some pairs =>
          some ⟨true, pairs.map (fun p => p.2), [], !groups.isEmpty, pairs, [],
                nid + groups.length⟩

/-- Processing of the round worklist (the inner while loop of RunOnFunction,
SROA.cpp lines 344-345): analyze each popped alloca, accumulating the change
flag, the new allocas (TempWorklist) and the declined allocas
(TryPromotelist); a crash in any call aborts the run. -/
def processList : List AllocaInst → Nat → Option (Bool × List AllocaInst × List AllocaInst × Nat)
  | [], n => some (false, [], [], n)
  | a :: rest, n =>
    match AnalyzeAlloca a n with
    | none => none
    | some r =>
      match processList rest r.nextId with
      | none => none
      | some (ch, tw, tp, n2) =>
        some ((r.changed || ch), r.newAllocas ++ tw, r.tryPromote ++ tp, n2)

/-- The worklist is consumed with pop_back_val, so the entries are processed
in reverse list order. -/
def processWorklist (wl : List AllocaInst) (n : Nat) :
    Option (Bool × List AllocaInst × List AllocaInst × Nat) :=
  processList wl.reverse n

/-- Removal of the first list entry with the given id, modelling
TempWorklist.erase(find(TempWorklist, AI)) with pointer identity. -/
def eraseFirstId : List AllocaInst → Nat → List AllocaInst
  | [], _ => []
  | a :: rest, i => if a.id = i then rest else a :: eraseFirstId rest i

/-- Removal of every promoted alloca from the temp worklist (SROA.cpp lines
362-367). -/
def removeByIds (l : List AllocaInst) (rem : List AllocaInst) : List AllocaInst :=
  rem.foldl (fun acc a => eraseFirstId acc a.id) l

/-- The observable state of one round of the fixpoint driver (one iteration
of the do-while in RunOnFunction, SROA.cpp lines 340-370): the change flag;
the TryPromotelist as filled by the splitting phase (declined); the
TempWorklist of newly created allocas (created); the TryPromotelist after
TempWorklist is appended to it, which is the pool the Promotion Filter runs
over (pool); the sublist the filter accepts and hands to PromoteMemToReg
(promoted); the worklist for the next round, TempWorklist with the promoted
allocas removed (next); and the next fresh id. -/
structure RoundResult where
  changed : Bool
  declined : List AllocaInst
  created : List AllocaInst
  pool : List AllocaInst
  promoted : List AllocaInst
  next : List AllocaInst
  nextId : Nat

/-- One round of RunOnFunction: split everything on the worklist, append the
new allocas to the try-promote list, filter it with the strict classifier,
promote the batch (PromoteAllocas returns whether the batch was nonempty),
and remove promoted allocas from the next-round worklist. -/
def roundStep (wl : List AllocaInst) (n : Nat) : Option RoundResult :=
  match processWorklist wl n with
  | none => none
  | some (ch, tw, tp, n2) =>
    let pool := tp ++ tw
    let promoted := pool.filter isPromotableAlloca
    let changed := ch || !promoted.isEmpty
    let next := removeByIds tw promoted
    some ⟨changed, tp, tw, pool, promoted, next, n2⟩

/-- The outcome of a driver run: the source aborts on a classifier crash,
otherwise the do-while loop exits with the accumulated change flag. -/
inductive DriverOutcome : Type where
  | crashed
  | finished (changed : Bool)

/-- Fuel-indexed fixpoint driver (the do-while loop of RunOnFunction): run a
round; if the next-round worklist is empty the loop exits, otherwise it
repeats on that worklist.  none means the fuel ran out before the loop
exited, so any proof that the result is some bounds the number of rounds. -/
def runDriverFuel : Nat → Bool → Nat → List AllocaInst → Option DriverOutcome
  | 0, _, _, _ => none
  | fuel + 1, ch, n, wl =>
    match roundStep wl n with
    | none => some .crashed
    | some r =>
      if r.next.isEmpty then some (.finished (ch || r.changed))
      else runDriverFuel fuel (ch || r.changed) r.nextId r.next

/-- Termination measure of one candidate location: one plus the node count
of its use tree, times the depth of its allocated type. -/
def weight (AI : AllocaInst) : Nat :=
  (1 + useListCount AI.users) * depth AI.allocatedType

/-- Termination measure of a worklist: the sum of the weights. -/
def mu : List AllocaInst → Nat
  | [] => 0
  | a :: rest => weight a + mu rest

/-! Basic lemmas about the measures. -/

theorem depth_pos (t : LLVMType) : 0 < depth t := by
  cases t <;> simp [depth]

theorem useCount_pos (u : Use) : 0 < useCount u := by
  cases u <;> simp [useCount]

theorem useListCount_append (l1 l2 : List Use) :
    useListCount (l1 ++ l2) = useListCount l1 + useListCount l2 := by
  induction l1 with
  | nil => simp [useListCount]
  | cons u l ih => simp [useListCount, ih]; omega

theorem mu_append (l1 l2 : List AllocaInst) : mu (l1 ++ l2) = mu l1 + mu l2 := by
  induction l1 with
  | nil => simp [mu]
  | cons a l ih => simp [mu, ih]; omega

theorem mu_reverse (l : List AllocaInst) : mu l.reverse = mu l := by
  induction l with
  | nil => rfl
  | cons a l ih => simp [mu, List.reverse_cons, mu_append, ih]; omega

theorem weight_pos (AI : AllocaInst) : 0 < weight AI :=
  Nat.mul_pos (by omega) (depth_pos _)

theorem depth_le_depthList {t : LLVMType} {l : List LLVMType} (h : t ∈ l) :
    depth t ≤ depthList l := by
  induction l with
  | nil => cases h
  | cons s l ih =>
    rcases List.mem_cons.mp h with h1 | h2
    · subst h1; simp [depthList]
    · have := ih h2
      simp [depthList]
      omega

theorem fieldTypeAt_depth_lt {t f : LLVMType} {k : Nat} (h : fieldTypeAt t k = some f) :
    depth f < depth t := by
  cases t with
  | array n e =>
    simp [fieldTypeAt] at h
    subst h; simp [depth]
  | vector n e =>
    simp [fieldTypeAt] at h
    subst h; simp [depth]
  | struct fields =>
    have h2 : fields[k]? = some f := h
    have hm : f ∈ fields := List.getElem?_mem h2
    have := depth_le_depthList hm
    simp [depth]
    omega
  | int b => simp [fieldTypeAt] at h
  | float => simp [fieldTypeAt] at h
  | ptr p a1 => simp [fieldTypeAt] at h

/-! Lemmas about the use classifiers. -/

/-- A use the spec calls conservatively rejecting: a volatile load, a
volatile store, or a store whose value operand is the inspected location
itself. -/
def isBadUse : Use → Bool
  | .load volatile => volatile
  | .store volatile valueIsSelf => volatile || valueIsSelf
  | _ => false

theorem isPromotable_cons_true {s : Bool} {v : Use} {rest : List Use}
    (h : isPromotable s (v :: rest) = some true) : isPromotable s rest = some true := by
  cases v with
  | load volatile =>
    simp only [isPromotable] at h
    split at h
    · simp at h
    · exact h
  | store volatile valueIsSelf =>
    simp only [isPromotable] at h
    split at h
    · simp at h
    · exact h
  | gep rt idxs gus =>
    rw [isPromotable.eq_def] at h
    simp only [] at h
    split at h
    · simp at h
    · simp at h
    · simp at h
    · simp at h
    · split at h
      · split at h
        · exact h
        · rcases hg : isPromotable true gus with _ | b
          · rw [hg] at h; simp at h
          · rw [hg] at h
            cases b
            · simp at h
            · exact h
      · simp at h
  | icmp =>
    simp only [isPromotable] at h
    split at h
    · exact h
    · simp at h
  | bitcast bus =>
    simp only [isPromotable] at h
    split at h
    · exact h
    · simp at h
  | intrin lifetime =>
    simp only [isPromotable] at h
    split at h
    · exact h
    · simp at h
  | other =>
    simp only [isPromotable] at h
    simp at h

theorem isPromotable_head_bad {s : Bool} {v : Use} {rest : List Use}
    (hb : isBadUse v = true) : isPromotable s (v :: rest) ≠ some true := by
  cases v with
  | load volatile =>
    simp only [isBadUse] at hb
    subst hb
    simp [isPromotable]
  | store volatile valueIsSelf =>
    simp only [isBadUse] at hb
    simp only [isPromotable]
    rcases Bool.or_eq_true_iff.mp hb with hb | hb <;> simp [hb]
  | gep rt idxs gus => simp [isBadUse] at hb
  | icmp => simp [isBadUse] at hb
  | bitcast bus => simp [isBadUse] at hb
  | intrin lifetime => simp [isBadUse] at hb
  | other => simp [isBadUse] at hb

theorem isPromotable_ne_true_of_bad {s : Bool} {l : List Use} {u : Use}
    (hu : u ∈ l) (hb : isBadUse u = true) : isPromotable s l ≠ some true := by
  induction l with
  | nil => cases hu
  | cons v rest ih =>
    rcases List.mem_cons.mp hu with h1 | h2
    · subst h1; exact isPromotable_head_bad hb
    · intro h
      exact ih h2 (isPromotable_cons_true h)

theorem strictUses_cons_true {a1 : Nat} {v : Use} {rest : List Use}
    (h : strictUses a1 (v :: rest) = true) : strictUses a1 rest = true := by
  cases v with
  | load volatile =>
    simp only [strictUses] at h
    split at h
    · simp at h
    · exact h
  | store volatile valueIsSelf =>
    simp only [strictUses] at h
    split at h
    · simp at h
    · exact h
  | gep rt idxs gus =>
    simp only [strictUses] at h
    split at h
    · simp at h
    · split at h
      · simp at h
      · split at h
        · simp at h
        · exact h
  | icmp => simp [strictUses] at h
  | bitcast bus =>
    simp only [strictUses] at h
    split at h
    · exact h
    · simp at h
  | intrin lifetime =>
    simp only [strictUses] at h
    split at h
    · exact h
    · simp at h
  | other => simp [strictUses] at h

theorem strictUses_head_bad {a1 : Nat} {v : Use} {rest : List Use}
    (hb : isBadUse v = true) : strictUses a1 (v :: rest) = false := by
  cases v with
  | load volatile =>
    simp only [isBadUse] at hb
    subst hb
    simp [strictUses]
  | store volatile valueIsSelf =>
    simp only [isBadUse] at hb
    simp only [strictUses]
    rcases Bool.or_eq_true_iff.mp hb with hb | hb <;> simp [hb]
  | gep rt idxs gus => simp [isBadUse] at hb
  | icmp => simp [isBadUse] at hb
  | bitcast bus => simp [isBadUse] at hb
  | intrin lifetime => simp [isBadUse] at hb
  | other => simp [isBadUse] at hb

theorem strictUses_false_of_bad {a1 : Nat} {l : List Use} {u : Use}
    (hu : u ∈ l) (hb : isBadUse u = true) : strictUses a1 l = false := by
  induction l with
  | nil => cases hu
  | cons v rest ih =>
    rcases List.mem_cons.mp hu with h1 | h2
    · subst h1; exact strictUses_head_bad hb
    · by_cases hh : strictUses a1 (v :: rest) = true
      · exact absurd (ih h2) (by simp [strictUses_cons_true hh])
      · simpa using hh

theorem isPromotableAlloca_false_of_bad {AI : AllocaInst} {u : Use}
    (hu : u ∈ AI.users) (hb : isBadUse u = true) : isPromotableAlloca AI = false := by
  simp only [isPromotableAlloca]
  split
  · rfl
  · exact strictUses_false_of_bad hu hb

theorem isPromotable_gep_indices {s : Bool} {l : List Use} {rt : LLVMType}
    {idxs : List Operand} {gus : List Use}
    (h : isPromotable s l = some true) (hm : Use.gep rt idxs gus ∈ l) :
    ∃ a b t, idxs = Operand.const a :: Operand.const b :: t := by
  induction l with
  | nil => cases hm
  | cons v rest ih =>
    rcases List.mem_cons.mp hm with h1 | h2
    · subst h1
      rw [isPromotable.eq_def] at h
      simp only [] at h
      split at h
      · simp at h
      · simp at h
      · simp at h
      · simp at h
      · exact ⟨_, _, _, rfl⟩
    · exact ih (isPromotable_cons_true h) h2

/-! Lemmas about the offset map and the split measure. -/

/-- Total node count of the GEPs stored in an offset map. -/
def entriesWeight : List (Nat × List Use) → Nat
  | [] => 0
  | e :: rest => useListCount e.2 + entriesWeight rest

theorem useListCount_concatChildren {gs : List Use}
    (hg : ∀ g ∈ gs, isGepU g = true) :
    useListCount (concatChildren gs) + gs.length = useListCount gs := by
  induction gs with
  | nil => simp [concatChildren, useListCount]
  | cons g gs ih =>
    have hgep := hg g (List.mem_cons_self g gs)
    have ih2 := ih fun x hx => hg x (List.mem_cons_of_mem _ hx)
    cases g with
    | gep rt idxs us =>
      simp only [concatChildren, gepChildren, useListCount_append, useListCount,
        useCount, List.length_cons]
      omega
    | load v => simp [isGepU] at hgep
    | store v s => simp [isGepU] at hgep
    | icmp => simp [isGepU] at hgep
    | bitcast bus => simp [isGepU] at hgep
    | intrin lt => simp [isGepU] at hgep
    | other => simp [isGepU] at hgep

theorem entriesWeight_insertOffset (m : List (Nat × List Use)) (c : Nat) (g : Use) :
    entriesWeight (insertOffset m c g) = useCount g + entriesWeight m := by
  induction m with
  | nil => simp [insertOffset, entriesWeight, useListCount]
  | cons e rest ih =>
    rcases e with ⟨k, gs⟩
    simp only [insertOffset]
    split
    · simp [entriesWeight, useListCount]
    · split
      · simp [entriesWeight, useListCount_append, useListCount]
        omega
      · simp [entriesWeight, ih]
        omega

theorem insertOffset_entries_ne_nil {m : List (Nat × List Use)} {c : Nat} {g : Use}
    (hm : ∀ e ∈ m, e.2 ≠ []) : ∀ e ∈ insertOffset m c g, e.2 ≠ [] := by
  induction m with
  | nil =>
    intro e he
    simp only [insertOffset, List.mem_singleton] at he
    subst he
    simp
  | cons hd rest ih =>
    rcases hd with ⟨k, gs⟩
    intro e he
    simp only [insertOffset] at he
    split at he
    · rcases List.mem_cons.mp he with h1 | h1
      · subst h1; simp
      · exact hm e h1
    · split at he
      · rcases List.mem_cons.mp he with h1 | h1
        · subst h1; simp
        · exact hm e (List.mem_cons_of_mem _ h1)
      · rcases List.mem_cons.mp he with h1 | h1
        · subst h1; exact hm _ (List.mem_cons_self _ _)
        · exact ih (fun e' he' => hm e' (List.mem_cons_of_mem _ he')) e h1

theorem insertOffset_entries_gep {m : List (Nat × List Use)} {c : Nat} {g : Use}
    (hm : ∀ e ∈ m, ∀ x ∈ e.2, isGepU x = true) (hgg : isGepU g = true) :
    ∀ e ∈ insertOffset m c g, ∀ x ∈ e.2, isGepU x = true := by
  induction m with
  | nil =>
    intro e he x hx
    simp only [insertOffset, List.mem_singleton] at he
    subst he
    simp only [List.mem_singleton] at hx
    subst hx
    exact hgg
  | cons hd rest ih =>
    rcases hd with ⟨k, gs⟩
    intro e he x hx
    simp only [insertOffset] at he
    split at he
    · rcases List.mem_cons.mp he with h1 | h1
      · subst h1
        simp only [List.mem_singleton] at hx
        subst hx
        exact hgg
      · exact hm e h1 x hx
    · split at he
      · rcases List.mem_cons.mp he with h1 | h1
        · subst h1
          rcases List.mem_append.mp hx with h2 | h2
          · exact hm (k, gs) (List.mem_cons_self _ _) x h2
          · simp only [List.mem_singleton] at h2
            subst h2
            exact hgg
        · exact hm e (List.mem_cons_of_mem _ h1) x hx
      · rcases List.mem_cons.mp he with h1 | h1
        · subst h1; exact hm _ (List.mem_cons_self _ _) x hx
        · exact ih (fun e' he' => hm e' (List.mem_cons_of_mem _ he')) e h1 x hx

theorem ExtractOffsets_weight {us : List Use} {m out : List (Nat × List Use)}
    (h : ExtractOffsets us m = some out) :
    entriesWeight out ≤ entriesWeight m + useListCount us := by
  induction us generalizing m with
  | nil =>
    simp only [ExtractOffsets, Option.some.injEq] at h
    subst h
    simp [useListCount]
  | cons u rest ih =>
    cases u with
    | gep rt idxs gus =>
      simp only [ExtractOffsets] at h
      split at h
      · have := ih h
        rw [entriesWeight_insertOffset] at this
        simp only [useListCount, useCount] at this ⊢
        omega
      · simp at h
    | load v =>
      simp only [ExtractOffsets] at h
      have := ih h
      simp only [useListCount, useCount]
      omega
    | store v s =>
      simp only [ExtractOffsets] at h
      have := ih h
      simp only [useListCount, useCount]
      omega
    | icmp =>
      simp only [ExtractOffsets] at h
      have := ih h
      simp only [useListCount, useCount]
      omega
    | bitcast bus =>
      simp only [ExtractOffsets] at h
      have := ih h
      simp only [useListCount, useCount]
      omega
    | intrin lt =>
      simp only [ExtractOffsets] at h
      have := ih h
      simp only [useListCount, useCount]
      omega
    | other =>
      simp only [ExtractOffsets] at h
      have := ih h
      simp only [useListCount, useCount]
      omega

theorem ExtractOffsets_entries_ne_nil {us : List Use} {m out : List (Nat × List Use)}
    (h : ExtractOffsets us m = some out) (hm : ∀ e ∈ m, e.2 ≠ []) :
    ∀ e ∈ out, e.2 ≠ [] := by
  induction us generalizing m with
  | nil =>
    simp only [ExtractOffsets, Option.some.injEq] at h
    subst h
    exact hm
  | cons u rest ih =>
    cases u with
    | gep rt idxs gus =>
      simp only [ExtractOffsets] at h
      split at h
      · exact ih h (insertOffset_entries_ne_nil hm)
      · simp at h
    | load v => exact ih h hm
    | store v s => exact ih h hm
    | icmp => exact ih h hm
    | bitcast bus => exact ih h hm
    | intrin lt => exact ih h hm
    | other => exact ih h hm

theorem ExtractOffsets_entries_gep {us : List Use} {m out : List (Nat × List Use)}
    (h : ExtractOffsets us m = some out)
    (hm : ∀ e ∈ m, ∀ x ∈ e.2, isGepU x = true) :
    ∀ e ∈ out, ∀ x ∈ e.2, isGepU x = true := by
  induction us generalizing m with
  | nil =>
    simp only [ExtractOffsets, Option.some.injEq] at h
    subst h
    exact hm
  | cons u rest ih =>
    cases u with
    | gep rt idxs gus =>
      simp only [ExtractOffsets] at h
      split at h
      · exact ih h (insertOffset_entries_gep hm rfl)
      · simp at h
    | load v => exact ih h hm
    | store v s => exact ih h hm
    | icmp => exact ih h hm
    | bitcast bus => exact ih h hm
    | intrin lt => exact ih h hm
    | other => exact ih h hm

theorem buildPairs_length {AI : AllocaInst} {gs : List (Nat × List Use)} {n : Nat}
    {ps : List ((Nat × List Use) × AllocaInst)} (h : buildPairs AI gs n = some ps) :
    ps.length = gs.length := by
  induction gs generalizing n ps with
  | nil =>
    simp only [buildPairs, Option.some.injEq] at h
    subst h
    rfl
  | cons e rest ih =>
    rcases e with ⟨c, gsE⟩
    simp only [buildPairs] at h
    rcases hf : fieldTypeAt AI.allocatedType c with _ | fty <;> rw [hf] at h
    · simp at h
    · rcases hb : buildPairs AI rest (n + 1) with _ | ps1 <;> rw [hb] at h
      · simp at h
      · simp only [Option.some.injEq] at h
        subst h
        simp [ih hb]

theorem buildPairs_users {AI : AllocaInst} {gs : List (Nat × List Use)} {n : Nat}
    {ps : List ((Nat × List Use) × AllocaInst)} (h : buildPairs AI gs n = some ps) :
    ∀ p ∈ ps, p.2.users = concatChildren p.1.2 ∧ p.2.addrspace = AI.addrspace ∧
      fieldTypeAt AI.allocatedType p.1.1 = some p.2.allocatedType := by
  induction gs generalizing n ps with
  | nil =>
    simp only [buildPairs, Option.some.injEq] at h
    subst h
    intro p hp
    cases hp
  | cons e rest ih =>
    rcases e with ⟨c, gsE⟩
    simp only [buildPairs] at h
    rcases hf : fieldTypeAt AI.allocatedType c with _ | fty <;> rw [hf] at h
    · simp at h
    · rcases hb : buildPairs AI rest (n + 1) with _ | ps1 <;> rw [hb] at h
      · simp at h
      · simp only [Option.some.injEq] at h
        subst h
        intro p hp
        rcases List.mem_cons.mp hp with h1 | h1
        · subst h1
          exact ⟨rfl, rfl, hf⟩
        · exact ih hb p h1

theorem buildPairs_ids {AI : AllocaInst} {gs : List (Nat × List Use)} {n : Nat}
    {ps : List ((Nat × List Use) × AllocaInst)} (h : buildPairs AI gs n = some ps) :
    ∀ p ∈ ps, n ≤ p.2.id ∧ p.2.id < n + ps.length := by
  induction gs generalizing n ps with
  | nil =>
    simp only [buildPairs, Option.some.injEq] at h
    subst h
    intro p hp
    cases hp
  | cons e rest ih =>
    rcases e with ⟨c, gsE⟩
    simp only [buildPairs] at h
    rcases hf : fieldTypeAt AI.allocatedType c with _ | fty <;> rw [hf] at h
    · simp at h
    · rcases hb : buildPairs AI rest (n + 1) with _ | ps1 <;> rw [hb] at h
      · simp at h
      · simp only [Option.some.injEq] at h
        subst h
        intro p hp
        rcases List.mem_cons.mp hp with h1 | h1
        · subst h1
          simp
        · have := ih hb p h1
          simp only [List.length_cons]
          omega

theorem buildPairs_mem {AI : AllocaInst} {gs : List (Nat × List Use)} {n : Nat}
    {ps : List ((Nat × List Use) × AllocaInst)} {c : Nat} {gsE : List Use}
    (h : buildPairs AI gs n = some ps) (hm : (c, gsE) ∈ gs) :
    ∃ na, ((c, gsE), na) ∈ ps := by
  induction gs generalizing n ps with
  | nil => cases hm
  | cons e rest ih =>
    rcases e with ⟨c1, gs1⟩
    simp only [buildPairs] at h
    rcases hf : fieldTypeAt AI.allocatedType c1 with _ | fty <;> rw [hf] at h
    · simp at h
    · rcases hb : buildPairs AI rest (n + 1) with _ | ps1 <;> rw [hb] at h
      · simp at h
      · simp only [Option.some.injEq] at h
        subst h
        rcases List.mem_cons.mp hm with h1 | h1
        · rw [show ((c, gsE) : Nat × List Use) = (c1, gs1) from h1]
          exact ⟨_, List.mem_cons_self _ _⟩
        · rcases ih hb h1 with ⟨na, hna⟩
          exact ⟨na, List.mem_cons_of_mem _ hna⟩

theorem buildPairs_weight {AI : AllocaInst} {gs : List (Nat × List Use)} {n : Nat}
    {ps : List ((Nat × List Use) × AllocaInst)} (h : buildPairs AI gs n = some ps)
    (hne : ∀ e ∈ gs, e.2 ≠ []) (hgep : ∀ e ∈ gs, ∀ x ∈ e.2, isGepU x = true) :
    mu (ps.map fun p => p.2) ≤ (depth AI.allocatedType - 1) * entriesWeight gs := by
  induction gs generalizing n ps with
  | nil =>
    simp only [buildPairs, Option.some.injEq] at h
    subst h
    simp [mu, entriesWeight]
  | cons e rest ih =>
    rcases e with ⟨c, gsE⟩
    simp only [buildPairs] at h
    rcases hf : fieldTypeAt AI.allocatedType c with _ | fty <;> rw [hf] at h
    · simp at h
    · rcases hb : buildPairs AI rest (n + 1) with _ | ps1 <;> rw [hb] at h
      · simp at h
      · simp only [Option.some.injEq] at h
        subst h
        have hd : depth fty < depth AI.allocatedType := fieldTypeAt_depth_lt hf
        have hne1 : gsE ≠ [] := hne (c, gsE) (List.mem_cons_self _ _)
        have hgep1 : ∀ x ∈ gsE, isGepU x = true :=
          fun x hx => hgep (c, gsE) (List.mem_cons_self _ _) x hx
        have hcc := useListCount_concatChildren hgep1
        have hlen : 1 ≤ gsE.length := List.length_pos.mpr hne1
        have h1 : 1 + useListCount (concatChildren gsE) ≤ useListCount gsE := by omega
        have h2 : (1 + useListCount (concatChildren gsE)) * depth fty ≤
            useListCount gsE * (depth AI.allocatedType - 1) :=
          Nat.mul_le_mul h1 (by omega)
        have h3 := ih hb (fun e' he' => hne e' (List.mem_cons_of_mem _ he'))
          (fun e' he' => hgep e' (List.mem_cons_of_mem _ he'))
        simp only [List.map_cons, mu, entriesWeight, weight]
        rw [Nat.mul_add]
        have hc : useListCount gsE * (depth AI.allocatedType - 1) =
            (depth AI.allocatedType - 1) * useListCount gsE := Nat.mul_comm _ _
        omega

theorem AnalyzeAlloca_measure {AI : AllocaInst} {nid : Nat} {r : SplitResult}
    (h : AnalyzeAlloca AI nid = some r) : mu r.newAllocas < weight AI := by
  simp only [AnalyzeAlloca] at h
  split at h
  · simp only [Option.some.injEq] at h
    subst h
    simpa [mu] using weight_pos AI
  · split at h
    · simp only [Option.some.injEq] at h
      subst h
      simpa [mu] using weight_pos AI
    · split at h
      · simp only [Option.some.injEq] at h
        subst h
        simpa [mu] using weight_pos AI
      · split at h
        · simp only [Option.some.injEq] at h
          subst h
          simpa [mu] using weight_pos AI
        · rcases hp : isPromotable false AI.users with _ | b <;> rw [hp] at h
          · simp at h
          · cases b with
            | false =>
              simp only [Option.some.injEq] at h
              subst h
              simpa [mu] using weight_pos AI
            | true =>
              rcases he : ExtractOffsets AI.users [] with _ | groups <;> rw [he] at h
              · simp at h
              · simp only [] at h
                rcases hbp : buildPairs AI groups nid with _ | pairs <;> rw [hbp] at h
                · simp at h
                · simp only [Option.some.injEq] at h
                  subst h
                  have hw := buildPairs_weight hbp
                    (ExtractOffsets_entries_ne_nil he (by intro e he'; cases he'))
                    (ExtractOffsets_entries_gep he (by intro e he'; cases he'))
                  have hew : entriesWeight groups ≤ useListCount AI.users := by
                    have := ExtractOffsets_weight he
                    simpa [entriesWeight] using this
                  have hD := depth_pos AI.allocatedType
                  have hstep : mu (pairs.map fun p => p.2) ≤
                      (depth AI.allocatedType - 1) * useListCount AI.users :=
                    le_trans hw (Nat.mul_le_mul_left _ hew)
                  have hfin : (depth AI.allocatedType - 1) * useListCount AI.users <
                      weight AI := by
                    simp only [weight]
                    have e1 : (depth AI.allocatedType - 1) * useListCount AI.users ≤
                        depth AI.allocatedType * useListCount AI.users :=
                      Nat.mul_le_mul_right _ (by omega)
                    have e2 : depth AI.allocatedType * useListCount AI.users <
                        (1 + useListCount AI.users) * depth AI.allocatedType := by
                      rw [Nat.add_mul, Nat.one_mul, Nat.mul_comm]
                      omega
                    omega
                  exact lt_of_le_of_lt hstep hfin

theorem AnalyzeAlloca_ids {AI : AllocaInst} {nid : Nat} {r : SplitResult}
    (h : AnalyzeAlloca AI nid = some r) :
    nid ≤ r.nextId ∧ (∀ na ∈ r.newAllocas, nid ≤ na.id ∧ na.id < r.nextId) ∧
      (∀ a ∈ r.tryPromote, a = AI) := by
  simp only [AnalyzeAlloca] at h
  split at h
  · simp only [Option.some.injEq] at h
    subst h
    refine ⟨le_refl _, ?_, ?_⟩ <;> intro a ha <;> cases ha
  · split at h
    · simp only [Option.some.injEq] at h
      subst h
      refine ⟨le_refl _, ?_, ?_⟩
      · intro a ha; cases ha
      · intro a ha
        simpa using ha
    · split at h
      · simp only [Option.some.injEq] at h
        subst h
        refine ⟨le_refl _, ?_, ?_⟩ <;> intro a ha <;> cases ha
      · split at h
        · simp only [Option.some.injEq] at h
          subst h
          refine ⟨le_refl _, ?_, ?_⟩
          · intro a ha; cases ha
          · intro a ha
            simpa using ha
        · rcases hp : isPromotable false AI.users with _ | b <;> rw [hp] at h
          · simp at h
          · cases b with
            | false =>
              simp only [Option.some.injEq] at h
              subst h
              refine ⟨le_refl _, ?_, ?_⟩
              · intro a ha; cases ha
              · intro a ha
                simpa using ha
            | true =>
              rcases he : ExtractOffsets AI.users [] with _ | groups <;> rw [he] at h
              · simp at h
              · simp only [] at h
                rcases hbp : buildPairs AI groups nid with _ | pairs <;> rw [hbp] at h
                · simp at h
                · simp only [Option.some.injEq] at h
                  subst h
                  have hlen := buildPairs_length hbp
                  have hids := buildPairs_ids hbp
                  refine ⟨show nid ≤ nid + groups.length by omega, ?_, ?_⟩
                  · intro na hna
                    rcases List.mem_map.mp hna with ⟨p, hp1, hp2⟩
                    have := hids p hp1
                    subst hp2
                    exact show nid ≤ p.2.id ∧ p.2.id < nid + groups.length by omega
                  · intro a ha
                    cases ha

/-- Every path of AnalyzeAlloca that does not reach the splitting stage
leaves the function untouched: no new allocas, no split pairs, no erasure,
and the change flag false. -/
theorem AnalyzeAlloca_not_promotable {AI : AllocaInst} {nid : Nat} {r : SplitResult}
    (h : AnalyzeAlloca AI nid = some r) (hne : ¬AI.users.isEmpty = true)
    (hp : isPromotable false AI.users ≠ some true) :
    r.changed = false ∧ r.newAllocas = [] ∧ r.splitPairs = [] ∧ r.erased = false ∧
      r.erasedUses = [] := by
  simp only [AnalyzeAlloca] at h
  split at h
  · exact absurd (by assumption) hne
  · split at h
    · simp only [Option.some.injEq] at h
      subst h
      exact ⟨rfl, rfl, rfl, rfl, rfl⟩
    · split at h
      · simp only [Option.some.injEq] at h
        subst h
        exact ⟨rfl, rfl, rfl, rfl, rfl⟩
      · split at h
        · simp only [Option.some.injEq] at h
          subst h
          exact ⟨rfl, rfl, rfl, rfl, rfl⟩
        · rcases hq : isPromotable false AI.users with _ | b <;> rw [hq] at h
          · simp at h
          · cases b with
            | false =>
              simp only [Option.some.injEq] at h
              subst h
              exact ⟨rfl, rfl, rfl, rfl, rfl⟩
            | true => exact absurd hq hp

/-! Lemmas about the fixpoint driver. -/

theorem processList_measure {l : List AllocaInst} {n n2 : Nat} {ch : Bool}
    {tw tp : List AllocaInst}
    (h : processList l n = some (ch, tw, tp, n2)) :
    mu tw + l.length ≤ mu l := by
  induction l generalizing n ch tw tp n2 with
  | nil =>
    simp only [processList, Option.some.injEq, Prod.mk.injEq] at h
    obtain ⟨h1, h2, h3, h4⟩ := h
    subst h2
    simp [mu]
  | cons a rest ih =>
    simp only [processList] at h
    rcases ha : AnalyzeAlloca a n with _ | r <;> rw [ha] at h
    · simp at h
    · simp only [] at h
      rcases hr : processList rest r.nextId with _ | q <;> rw [hr] at h
      · simp at h
      · rcases q with ⟨ch1, tw1, tp1, n3⟩
        simp only [Option.some.injEq, Prod.mk.injEq] at h
        obtain ⟨h1, h2, h3, h4⟩ := h
        subst h2
        have hm := AnalyzeAlloca_measure ha
        have ht := ih hr
        rw [mu_append]
        simp only [mu, List.length_cons]
        omega

theorem processList_ids {l : List AllocaInst} {n n2 : Nat} {ch : Bool}
    {tw tp : List AllocaInst}
    (h : processList l n = some (ch, tw, tp, n2)) (hl : ∀ a ∈ l, a.id < n) :
    n ≤ n2 ∧ (∀ b ∈ tw, n ≤ b.id ∧ b.id < n2) ∧ (∀ a ∈ tp, a ∈ l) := by
  induction l generalizing n ch tw tp n2 with
  | nil =>
    simp only [processList, Option.some.injEq, Prod.mk.injEq] at h
    obtain ⟨h1, h2, h3, h4⟩ := h
    subst h2
    subst h3
    subst h4
    refine ⟨le_refl _, ?_, ?_⟩ <;> intro x hx <;> cases hx
  | cons a rest ih =>
    simp only [processList] at h
    rcases ha : AnalyzeAlloca a n with _ | r <;> rw [ha] at h
    · simp at h
    · simp only [] at h
      rcases hr : processList rest r.nextId with _ | q <;> rw [hr] at h
      · simp at h
      · rcases q with ⟨ch1, tw1, tp1, n3⟩
        simp only [Option.some.injEq, Prod.mk.injEq] at h
        obtain ⟨h1, h2, h3, h4⟩ := h
        subst h2
        subst h3
        subst h4
        obtain ⟨ha1, ha2, ha3⟩ := AnalyzeAlloca_ids ha
        have hrest : ∀ x ∈ rest, x.id < r.nextId := fun x hx =>
          lt_of_lt_of_le (hl x (List.mem_cons_of_mem _ hx)) ha1
        obtain ⟨hi1, hi2, hi3⟩ := ih hr hrest
        refine ⟨le_trans ha1 hi1, ?_, ?_⟩
        · intro b hb
          rcases List.mem_append.mp hb with hb1 | hb1
          · have := ha2 b hb1
            constructor
            · omega
            · exact lt_of_lt_of_le this.2 hi1
          · have := hi2 b hb1
            constructor
            · exact le_trans ha1 this.1
            · exact this.2
        · intro x hx
          rcases List.mem_append.mp hx with hx1 | hx1
          · rw [ha3 x hx1]
            exact List.mem_cons_self _ _
          · exact List.mem_cons_of_mem _ (hi3 x hx1)

theorem mu_eraseFirstId_le (l : List AllocaInst) (i : Nat) :
    mu (eraseFirstId l i) ≤ mu l := by
  induction l with
  | nil => simp [eraseFirstId]
  | cons a rest ih =>
    simp only [eraseFirstId]
    split
    · simp [mu]
    · simp only [mu]
      omega

theorem mem_eraseFirstId {l : List AllocaInst} {i : Nat} {x : AllocaInst}
    (h : x ∈ eraseFirstId l i) : x ∈ l := by
  induction l with
  | nil => simp [eraseFirstId] at h
  | cons a rest ih =>
    simp only [eraseFirstId] at h
    split at h
    · exact List.mem_cons_of_mem _ h
    · rcases List.mem_cons.mp h with h1 | h1
      · subst h1; exact List.mem_cons_self _ _
      · exact List.mem_cons_of_mem _ (ih h1)

theorem removeByIds_cons (l : List AllocaInst) (a : AllocaInst) (rem : List AllocaInst) :
    removeByIds l (a :: rem) = removeByIds (eraseFirstId l a.id) rem := rfl

theorem mu_removeByIds_le (l rem : List AllocaInst) :
    mu (removeByIds l rem) ≤ mu l := by
  induction rem generalizing l with
  | nil => simp [removeByIds]
  | cons a rem ih =>
    rw [removeByIds_cons]
    exact le_trans (ih _) (mu_eraseFirstId_le _ _)

theorem mem_removeByIds {l rem : List AllocaInst} {x : AllocaInst}
    (h : x ∈ removeByIds l rem) : x ∈ l := by
  induction rem generalizing l with
  | nil => simpa [removeByIds] using h
  | cons a rem ih =>
    rw [removeByIds_cons] at h
    exact mem_eraseFirstId (ih h)

theorem removeByIds_nil (rem : List AllocaInst) : removeByIds [] rem = [] := by
  induction rem with
  | nil => rfl
  | cons a rem ih =>
    rw [removeByIds_cons]
    simpa [eraseFirstId] using ih

theorem roundStep_next_measure {wl : List AllocaInst} {n : Nat} {r : RoundResult}
    (h : roundStep wl n = some r) (hne : ¬r.next.isEmpty = true) : mu r.next < mu wl := by
  simp only [roundStep, processWorklist] at h
  rcases hp : processList wl.reverse n with _ | q <;> rw [hp] at h
  · simp at h
  · rcases q with ⟨ch, tw, tp, n2⟩
    simp only [Option.some.injEq] at h
    subst h
    simp only [] at hne
    have h1 : mu (removeByIds tw (List.filter isPromotableAlloca (tp ++ tw))) ≤ mu tw :=
      mu_removeByIds_le _ _
    have h2 := processList_measure hp
    rw [mu_reverse] at h2
    rcases wl with _ | ⟨a, wl1⟩
    · exfalso
      simp only [List.reverse_nil, processList, Option.some.injEq, Prod.mk.injEq] at hp
      obtain ⟨g1, g2, g3, g4⟩ := hp
      subst g2
      rw [removeByIds_nil] at hne
      simp at hne
    · have hwp : 0 < weight a := weight_pos a
      have hlen : (a :: wl1).reverse.length = wl1.length + 1 := by simp
      simp only [mu] at h2 ⊢
      rw [hlen] at h2
      omega

/-! Membership and key-uniqueness lemmas for the offset map. -/

/-- The keys of the offset map are strictly ascending, as std::map iterates
them. -/
def SortedKeys : List (Nat × List Use) → Prop :=
  List.Pairwise (fun e1 e2 => e1.1 < e2.1)

theorem insertOffset_mem_key {m : List (Nat × List Use)} {c : Nat} {g : Use}
    {e : Nat × List Use} (he : e ∈ insertOffset m c g) :
    e.1 = c ∨ ∃ gs', (e.1, gs') ∈ m := by
  induction m with
  | nil =>
    simp only [insertOffset, List.mem_singleton] at he
    subst he
    exact Or.inl rfl
  | cons hd rest ih =>
    rcases hd with ⟨k, gs⟩
    simp only [insertOffset] at he
    split at he
    · rcases List.mem_cons.mp he with h1 | h1
      · subst h1
        exact Or.inl rfl
      · exact Or.inr ⟨e.2, h1⟩
    · split at he
      · rcases List.mem_cons.mp he with h1 | h1
        · subst h1
          exact Or.inl (show k = c by omega)
        · exact Or.inr ⟨e.2, List.mem_cons_of_mem _ h1⟩
      · rcases List.mem_cons.mp he with h1 | h1
        · subst h1
          exact Or.inr ⟨gs, List.mem_cons_self _ _⟩
        · rcases ih h1 with h2 | ⟨gs', h2⟩
          · exact Or.inl h2
          · exact Or.inr ⟨gs', List.mem_cons_of_mem _ h2⟩

theorem insertOffset_sorted {m : List (Nat × List Use)} {c : Nat} {g : Use}
    (hm : SortedKeys m) : SortedKeys (insertOffset m c g) := by
  induction m with
  | nil =>
    simp [insertOffset, SortedKeys]
  | cons e rest ih =>
    rcases e with ⟨k, gs⟩
    rcases List.pairwise_cons.mp hm with ⟨hk, hrest⟩
    simp only [insertOffset]
    split
    · refine List.Pairwise.cons ?_ hm
      intro e' he'
      rcases List.mem_cons.mp he' with h1 | h1
      · subst h1
        assumption
      · exact lt_trans (by assumption) (hk e' h1)
    · split
      · exact List.Pairwise.cons hk hrest
      · refine List.Pairwise.cons ?_ (ih hrest)
        intro e' he'
        rcases insertOffset_mem_key he' with h1 | ⟨gs', h1⟩
        · rw [h1]
          omega
        · exact hk (e'.1, gs') h1

theorem SortedKeys_unique {m : List (Nat × List Use)} (hm : SortedKeys m)
    {c : Nat} {gs1 gs2 : List Use} (h1 : (c, gs1) ∈ m) (h2 : (c, gs2) ∈ m) :
    gs1 = gs2 := by
  induction m with
  | nil => cases h1
  | cons e rest ih =>
    rcases List.pairwise_cons.mp hm with ⟨hk, hrest⟩
    rcases List.mem_cons.mp h1 with ha | ha <;> rcases List.mem_cons.mp h2 with hb | hb
    · rw [← hb] at ha
      exact (Prod.mk.injEq _ _ _ _ ▸ ha).2
    · exfalso
      have := hk _ hb
      rw [← ha] at this
      simp at this
    · exfalso
      have := hk _ ha
      rw [← hb] at this
      simp at this
    · exact ih hrest ha hb

theorem insertOffset_mem_add (m : List (Nat × List Use)) (c : Nat) (g : Use) :
    ∃ gs, (c, gs) ∈ insertOffset m c g ∧ g ∈ gs := by
  induction m with
  | nil =>
    refine ⟨[g], ?_, ?_⟩ <;> simp [insertOffset]
  | cons e rest ih =>
    rcases e with ⟨k, gs0⟩
    simp only [insertOffset]
    split
    · exact ⟨[g], List.mem_cons_self _ _, List.mem_singleton.mpr rfl⟩
    · split
      · have hck : c = k := by assumption
        subst hck
        exact ⟨gs0 ++ [g], List.mem_cons_self _ _, List.mem_append_right _ (by simp)⟩
      · rcases ih with ⟨gs, hmem, hg⟩
        exact ⟨gs, List.mem_cons_of_mem _ hmem, hg⟩

theorem insertOffset_mem_preserve {m : List (Nat × List Use)} {c k : Nat} {g x : Use}
    {gs : List Use} (hm : (k, gs) ∈ m) (hx : x ∈ gs) :
    ∃ gs', (k, gs') ∈ insertOffset m c g ∧ x ∈ gs' := by
  induction m with
  | nil => cases hm
  | cons e rest ih =>
    rcases e with ⟨k1, gs1⟩
    simp only [insertOffset]
    split
    · exact ⟨gs, List.mem_cons_of_mem _ hm, hx⟩
    · split
      · rcases List.mem_cons.mp hm with h1 | h1
        · have e1 : k = k1 := (Prod.mk.injEq _ _ _ _ ▸ h1).1
          have e2 : gs = gs1 := (Prod.mk.injEq _ _ _ _ ▸ h1).2
          subst e1
          subst e2
          exact ⟨gs ++ [g], List.mem_cons_self _ _, List.mem_append_left _ hx⟩
        · exact ⟨gs, List.mem_cons_of_mem _ h1, hx⟩
      · rcases List.mem_cons.mp hm with h1 | h1
        · have e1 : k = k1 := (Prod.mk.injEq _ _ _ _ ▸ h1).1
          have e2 : gs = gs1 := (Prod.mk.injEq _ _ _ _ ▸ h1).2
          subst e1
          subst e2
          exact ⟨gs, List.mem_cons_self _ _, hx⟩
        · rcases ih h1 with ⟨gs', hmem, hx'⟩
          exact ⟨gs', List.mem_cons_of_mem _ hmem, hx'⟩

theorem ExtractOffsets_sorted {us : List Use} {m out : List (Nat × List Use)}
    (h : ExtractOffsets us m = some out) (hm : SortedKeys m) : SortedKeys out := by
  induction us generalizing m with
  | nil =>
    simp only [ExtractOffsets, Option.some.injEq] at h
    subst h
    exact hm
  | cons u rest ih =>
    cases u with
    | gep rt idxs gus =>
      simp only [ExtractOffsets] at h
      split at h
      · exact ih h (insertOffset_sorted hm)
      · simp at h
    | load v => exact ih h hm
    | store v s => exact ih h hm
    | icmp => exact ih h hm
    | bitcast bus => exact ih h hm
    | intrin lt => exact ih h hm
    | other => exact ih h hm

theorem ExtractOffsets_mem_preserve {us : List Use} {m out : List (Nat × List Use)}
    {c : Nat} {x : Use} {gs : List Use}
    (h : ExtractOffsets us m = some out) (hin : (c, gs) ∈ m) (hx : x ∈ gs) :
    ∃ gs', (c, gs') ∈ out ∧ x ∈ gs' := by
  induction us generalizing m gs with
  | nil =>
    simp only [ExtractOffsets, Option.some.injEq] at h
    subst h
    exact ⟨gs, hin, hx⟩
  | cons u rest ih =>
    cases u with
    | gep rt idxs gus =>
      simp only [ExtractOffsets] at h
      split at h
      · rcases insertOffset_mem_preserve hin hx with ⟨gs', hmem, hx'⟩
        exact ih h hmem hx'
      · simp at h
    | load v => exact ih h hin hx
    | store v s => exact ih h hin hx
    | icmp => exact ih h hin hx
    | bitcast bus => exact ih h hin hx
    | intrin lt => exact ih h hin hx
    | other => exact ih h hin hx

theorem ExtractOffsets_mem_add {us : List Use} {m out : List (Nat × List Use)}
    {u : Use} {rt : LLVMType} {i1 : Operand} {c : Nat} {tl : List Operand}
    {gus : List Use}
    (h : ExtractOffsets us m = some out) (hu : u ∈ us)
    (hshape : u = Use.gep rt (i1 :: Operand.const c :: tl) gus) :
    ∃ gs, (c, gs) ∈ out ∧ u ∈ gs := by
  induction us generalizing m with
  | nil => cases hu
  | cons v rest ih =>
    rcases List.mem_cons.mp hu with h1 | h1
    · subst hshape
      rw [← h1] at h
      simp only [ExtractOffsets] at h
      rcases insertOffset_mem_add m c (Use.gep rt (i1 :: Operand.const c :: tl) gus)
        with ⟨gs, hmem, hg⟩
      exact ExtractOffsets_mem_preserve h hmem hg
    · cases v with
      | gep rt1 idxs1 gus1 =>
        simp only [ExtractOffsets] at h
        split at h
        · exact ih h h1
        · simp at h
      | load vv => exact ih h h1
      | store vv ss => exact ih h h1
      | icmp => exact ih h h1
      | bitcast bus => exact ih h h1
      | intrin lt => exact ih h h1
      | other => exact ih h h1

theorem runDriverFuel_isSome {fuel : Nat} :
    ∀ {wl : List AllocaInst} {ch : Bool} {n : Nat}, mu wl < fuel →
      (runDriverFuel fuel ch n wl).isSome = true := by
  induction fuel with
  | zero =>
    intro wl ch n h
    omega
  | succ f ih =>
    intro wl ch n h
    simp only [runDriverFuel]
    rcases hr : roundStep wl n with _ | r
    · simp
    · simp only []
      by_cases hni : r.next.isEmpty = true
      · simp [hni]
      · simp only [hni]
        have hm := roundStep_next_measure hr hni
        simp only [Bool.false_eq_true, if_false]
        exact ih (by omega)

/-! Helpers for stating the claims, and concrete example inputs. -/

/-- The index operand list of a GEP user (empty for other instructions). -/
def gepIndices : Use → List Operand
  | .gep _ idxs _ => idxs
  | _ => []

/-- The guard conditions AnalyzeAlloca checks before the splitting stage:
nonempty use list, composite or sequential allocated type, not a sequence of
more than five elements, nonzero storage size. -/
def passesSplitGuards (AI : AllocaInst) : Bool :=
  !AI.users.isEmpty &&
    !(!isCompositeTy AI.allocatedType && !isSequentialTy AI.allocatedType) &&
    !(isSequentialTy AI.allocatedType && decide (seqNumElements AI.allocatedType > 5)) &&
    !(decide (allocSize AI.allocatedType = 0))

/-- An empty-struct alloca whose only use is a plain store of an unrelated
value: its storage size is zero, so the Splitter declines it onto the
try-promote list, and the strict classifier accepts it although its
allocated type is an aggregate. -/
def exC1 : AllocaInst := ⟨0, .struct [], 0, [.store false false]⟩

/-- A seven-element array alloca with one non-volatile load use. -/
def exC2 : AllocaInst := ⟨0, .array 7 (.int 32), 0, [.load false]⟩

/-- A GEP with constant first and second indices but a non-constant third
index, whose own uses are a single non-volatile load. -/
def exC3gep : Use := .gep (.ptr (.int 32) 0) [.const 0, .const 0, .nonconst] [.load false]

/-- A scalar alloca with a volatile load use. -/
def exC4 : AllocaInst := ⟨0, .int 32, 0, [.load true]⟩

/-- The decline result AnalyzeAlloca produces for exC4. -/
def exC4res : SplitResult := ⟨false, [], [exC4], false, [], [], 0⟩

/-- A two-field struct alloca whose only use is a GEP carrying a single
index operand: the classifier reads the missing second index operand. -/
def exC5 : AllocaInst := ⟨0, .struct [.int 32, .int 32], 0, [.gep (.ptr (.int 32) 0) [.const 1] []]⟩

/-- A constant-index GEP use of a one-field struct, with one load user. -/
def exC6gep : Use := .gep (.ptr (.int 32) 0) [.const 0, .const 0] [.load false]

/-- A one-field struct alloca with the single GEP use exC6gep. -/
def exC6 : AllocaInst := ⟨0, .struct [.int 32], 0, [exC6gep]⟩

/-- The new alloca the Splitter creates for offset zero of exC6. -/
def exC6new : AllocaInst := ⟨1, .int 32, 0, [.load false]⟩

/-- The split result AnalyzeAlloca produces for exC6 with fresh id one. -/
def exC6res : SplitResult :=
  ⟨true, [exC6new], [], true, [((0, [exC6gep]), exC6new)], [], 2⟩

/-- The round result the driver produces on the worklist holding exC6. -/
def exC6round : RoundResult :=
  ⟨true, [], [exC6new], [exC6new], [exC6new], [], 2⟩

/-- A one-field struct alloca whose only use is a plain load: it passes every
guard and the loose classifier, but has no GEP use, so the offset map is
empty and the splitting stage changes nothing. -/
def exC7 : AllocaInst := ⟨0, .struct [.int 32], 0, [.load false]⟩

/-- The result AnalyzeAlloca produces for exC7: the change flag is true but
no location was created or erased. -/
def exC7res : SplitResult := ⟨true, [], [], false, [], [], 0⟩

/-- First GEP on a three-element array: first index zero, second index one. -/
def exC10a : Use := .gep (.ptr (.int 32) 0) [.const 0, .const 1] [.load false]

/-- Second GEP on the same array: first index seven, second index one. -/
def exC10b : Use := .gep (.ptr (.int 32) 0) [.const 7, .const 1] [.store false false]

/-- A three-element array alloca used by two GEPs whose second indices agree
and whose first indices differ. -/
def exC10 : AllocaInst := ⟨0, .array 3 (.int 32), 0, [exC10a, exC10b]⟩

/-- The single new alloca both GEPs of exC10 are redirected to. -/
def exC10new : AllocaInst := ⟨1, .int 32, 0, [.load false, .store false false]⟩

/-- The split result AnalyzeAlloca produces for exC10 with fresh id one. -/
def exC10res : SplitResult :=
  ⟨true, [exC10new], [], true, [((1, [exC10a, exC10b]), exC10new)], [], 2⟩

/-! The claims. -/

/-- Claim C1.  The claim says the Promotion Filter accepts a location only
when its allocated type is a scalar, so that no aggregate-typed location is
ever passed to the promotion service.  The code checks AI->getType(), the
pointer type of the alloca itself, which always satisfies
isPtrOrPtrVectorTy, so the scalar guard never rejects anything (first
conjunct); the concrete empty-struct alloca exC1, whose allocated type is an
aggregate, is declined by the Splitter onto the try-promote pool, accepted
by the filter, and handed to the promotion service in the round's promotion
batch (remaining conjuncts).  This evaluates the code at the failing input
of the code_bug verdict. -/
theorem C1_aggregate_location_reaches_promotion_service :
    (∀ (t : LLVMType) (a1 : Nat),
      (!isIntOrIntVectorTy (LLVMType.ptr t a1) && !isFPOrFPVectorTy (LLVMType.ptr t a1) &&
        !isPtrOrPtrVectorTy (LLVMType.ptr t a1)) = false) ∧
    isCompositeTy exC1.allocatedType = true ∧
    isPromotableAlloca exC1 = true ∧
    AnalyzeAlloca exC1 0 = some ⟨false, [], [exC1], false, [], [], 0⟩ ∧
    roundStep [exC1] 1 = some ⟨true, [exC1], [], [exC1], [exC1], [], 1⟩ ∧
    exC1 ∈ (⟨true, [exC1], [], [exC1], [exC1], [], 1⟩ : RoundResult).promoted := by
  refine ⟨?_, ?_, ?_, ?_, ?_, ?_⟩
  · intro t a1
    simp [isPtrOrPtrVectorTy]
  · simp [exC1, isCompositeTy]
  · simp [isPromotableAlloca, exC1, isIntOrIntVectorTy, isFPOrFPVectorTy,
      isPtrOrPtrVectorTy, strictUses]
  · simp [AnalyzeAlloca, exC1, isCompositeTy, isSequentialTy, allocSize, allocSizeList]
  · simp [roundStep, processWorklist, processList, AnalyzeAlloca, exC1, isCompositeTy,
      isSequentialTy, allocSize, allocSizeList, isPromotableAlloca, isIntOrIntVectorTy,
      isFPOrFPVectorTy, isPtrOrPtrVectorTy, strictUses, removeByIds, eraseFirstId]
  · simp

/-- Claim C2, counterexample.  The claim says a sequence location of more
than five elements is handed to the Promotion Filter pool; on the concrete
seven-element array exC2 the Splitter declines without pushing anything onto
the try-promote list, so the location is not handed to the pool. -/
theorem C2_counterexample_oversized_sequence_not_pooled :
    AnalyzeAlloca exC2 0 = some ⟨false, [], [], false, [], [], 0⟩ ∧
      ¬∃ r, AnalyzeAlloca exC2 0 = some r ∧ exC2 ∈ r.tryPromote := by
  have h : AnalyzeAlloca exC2 0 = some ⟨false, [], [], false, [], [], 0⟩ := by
    simp [AnalyzeAlloca, exC2, isCompositeTy, isSequentialTy, seqNumElements]
  refine ⟨h, ?_⟩
  rintro ⟨r, hr, hmem⟩
  rw [h] at hr
  simp only [Option.some.injEq] at hr
  subst hr
  simp at hmem

/-- Claim C2, amended.  A location whose type is neither a field-aggregate
nor a fixed-length sequence is declined onto the try-promote pool; a
sequence of more than five elements is declined without being handed to the
pool; a composite location of zero storage size (not an oversized sequence)
is declined onto the pool. -/
theorem C2_decline_routing {AI : AllocaInst} {nid : Nat}
    (hne : AI.users.isEmpty = false) :
    ((!isCompositeTy AI.allocatedType && !isSequentialTy AI.allocatedType) = true →
      AnalyzeAlloca AI nid = some ⟨false, [], [AI], false, [], [], nid⟩) ∧
    ((isSequentialTy AI.allocatedType && decide (seqNumElements AI.allocatedType > 5)) = true →
      AnalyzeAlloca AI nid = some ⟨false, [], [], false, [], [], nid⟩) ∧
    ((!isCompositeTy AI.allocatedType && !isSequentialTy AI.allocatedType) = false →
      (isSequentialTy AI.allocatedType && decide (seqNumElements AI.allocatedType > 5)) = false →
      allocSize AI.allocatedType = 0 →
      AnalyzeAlloca AI nid = some ⟨false, [], [AI], false, [], [], nid⟩) := by
  refine ⟨?_, ?_, ?_⟩
  · intro h1
    simp [AnalyzeAlloca, hne, h1]
  · intro h1
    have h0 : (!isCompositeTy AI.allocatedType && !isSequentialTy AI.allocatedType) = false := by
      rcases Bool.and_eq_true_iff.mp h1 with ⟨hs, _⟩
      simp [hs]
    simp [AnalyzeAlloca, hne, h0, h1]
  · intro h1 h2 h3
    simp [AnalyzeAlloca, hne, h1, h2, h3]

/-- Claim C2, witness for the amended theorem at the seven-element array. -/
theorem C2_decline_routing_witness :
    AnalyzeAlloca exC2 0 = some ⟨false, [], [], false, [], [], 0⟩ :=
  (C2_decline_routing (by simp [exC2])).2.1
    (by simp [exC2, isSequentialTy, seqNumElements])

/-- Claim C3, counterexample.  The claim says the loose classifier accepts
an address-computation use only when every index is a compile-time
constant; the GEP exC3gep carries a non-constant third index yet the
classifier accepts the location. -/
theorem C3_counterexample_nonconstant_third_index_accepted :
    isPromotable false [exC3gep] = some true ∧
      Operand.nonconst ∈ gepIndices exC3gep ∧
      ∀ v, Operand.nonconst ≠ Operand.const v := by
  refine ⟨?_, ?_, ?_⟩
  · simp [isPromotable, exC3gep, isPointerTy]
  · simp [gepIndices, exC3gep]
  · intro v h
    cases h

/-- Claim C3, amended.  The loose classifier accepts a GEP use only when its
first two index operands (getOperand 1 and getOperand 2) are compile-time
constants; indices beyond the second are not examined. -/
theorem C3_gep_use_first_two_indices_constant {s : Bool} {l : List Use}
    {rt : LLVMType} {idxs : List Operand} {gus : List Use}
    (h : isPromotable s l = some true) (hm : Use.gep rt idxs gus ∈ l) :
    ∃ a b t, idxs = Operand.const a :: Operand.const b :: t :=
  isPromotable_gep_indices h hm

/-- Claim C3, witness for the amended theorem at a concrete accepted GEP. -/
theorem C3_gep_use_first_two_indices_constant_witness :
    ∃ a b t, ([Operand.const 0, Operand.const 1] : List Operand) =
      Operand.const a :: Operand.const b :: t :=
  C3_gep_use_first_two_indices_constant (s := false)
    (l := [Use.gep (.ptr (.int 32) 0) [.const 0, .const 1] []])
    (by simp [isPromotable, isPointerTy]) (List.mem_singleton.mpr rfl)

/-- Claim C4.  A location with a volatile load or store use, or a store of
the location's own address as value, is rejected by the loose classifier,
rejected by the strict classifier (so it is never promoted), and any
successful AnalyzeAlloca call on it changes nothing: no new locations, no
split pairs, no erasure, change flag false. -/
theorem C4_volatile_or_selfstore_never_split_or_promoted {AI : AllocaInst}
    {nid : Nat} {u : Use} {r : SplitResult}
    (hu : u ∈ AI.users) (hb : isBadUse u = true)
    (hr : AnalyzeAlloca AI nid = some r) :
    isPromotable false AI.users ≠ some true ∧
    isPromotableAlloca AI = false ∧
    r.changed = false ∧ r.newAllocas = [] ∧ r.splitPairs = [] ∧ r.erased = false := by
  have h1 := isPromotable_ne_true_of_bad (s := false) hu hb
  have h2 := isPromotableAlloca_false_of_bad hu hb
  have hne : ¬AI.users.isEmpty = true := by
    rcases hq : AI.users with _ | ⟨v, rest⟩
    · rw [hq] at hu
      cases hu
    · simp
  have h3 := AnalyzeAlloca_not_promotable hr hne h1
  exact ⟨h1, h2, h3.1, h3.2.1, h3.2.2.1, h3.2.2.2.1⟩

/-- Claim C4, witness at the volatile-load location exC4. -/
theorem C4_volatile_or_selfstore_never_split_or_promoted_witness :
    isPromotable false exC4.users ≠ some true ∧
    isPromotableAlloca exC4 = false ∧
    exC4res.changed = false ∧ exC4res.newAllocas = [] ∧ exC4res.splitPairs = [] ∧
      exC4res.erased = false :=
  @C4_volatile_or_selfstore_never_split_or_promoted exC4 0 (Use.load true) exC4res
    (by simp [exC4]) (by simp [isBadUse])
    (by simp [AnalyzeAlloca, exC4, exC4res, isCompositeTy, isSequentialTy, allocSize,
      isPromotable])

/-- Claim C5.  The claim says classification never crashes on an unhandled
use shape; in the code, the loose classifier reads GEP operand 2
unconditionally once operand 1 is a constant, so a GEP use carrying a single
index operand is an out-of-range operand access (first conjunct), and it
dereferences the result of dyn_cast PointerType on the GEP result type, so
a vector-typed GEP result is a null dereference (second conjunct); on the
concrete struct alloca exC5 the whole AnalyzeAlloca call aborts (third
conjunct).  This evaluates the code at the failing input of the code_bug
verdict. -/
theorem C5_classifier_crashes_on_unusual_gep_shapes :
    isPromotable false [Use.gep (.ptr (.int 32) 0) [.const 1] []] = none ∧
    isPromotable false [Use.gep (.vector 2 (.ptr (.int 32) 0)) [.const 0, .const 0] []] = none ∧
    AnalyzeAlloca exC5 0 = none := by
  refine ⟨?_, ?_, ?_⟩
  · simp [isPromotable]
  · simp [isPromotable]
  · simp [AnalyzeAlloca, exC5, isCompositeTy, isSequentialTy, allocSize, allocSizeList,
      isPromotable]

/-- Claim C6, counterexample.  The claim says no live location is in two
pools at once; after the driver appends the TempWorklist to the
TryPromotelist, the newly created location exC6new is simultaneously in the
next-round classification list (created) and in the promotion-check pool
(pool) of the same round. -/
theorem C6_counterexample_new_location_in_two_pools :
    roundStep [exC6] 1 = some exC6round ∧
      exC6new ∈ exC6round.created ∧ exC6new ∈ exC6round.pool := by
  refine ⟨?_, ?_, ?_⟩
  · simp [roundStep, processWorklist, processList, AnalyzeAlloca, exC6, exC6gep,
      exC6new, exC6round, isCompositeTy, isSequentialTy, allocSize, allocSizeList,
      isPromotable, isPointerTy, ExtractOffsets, insertOffset, buildPairs, fieldTypeAt,
      concatChildren, gepChildren, isPromotableAlloca, isIntOrIntVectorTy,
      isFPOrFPVectorTy, isPtrOrPtrVectorTy, strictUses, removeByIds, eraseFirstId]
  · simp [exC6round]
  · simp [exC6round]

/-- Claim C6, amended.  Within one driver round, every location of the
promotion-check pool is either a declined original or a newly created
location; a declined original never coincides with a newly created location
(their ids are distinct when the round starts with fresh ids available), so
only newly created locations are in two pools at once; and the next-round
worklist is drawn from the newly created locations only. -/
theorem C6_pools_overlap_only_new_locations {wl : List AllocaInst} {n : Nat}
    {rr : RoundResult} (h : roundStep wl n = some rr)
    (hids : ∀ a ∈ wl, a.id < n) :
    (∀ a ∈ rr.pool, a ∈ rr.declined ∨ a ∈ rr.created) ∧
    (∀ a ∈ rr.declined, ∀ b ∈ rr.created, a.id ≠ b.id) ∧
    (∀ a ∈ rr.next, a ∈ rr.created) := by
  simp only [roundStep, processWorklist] at h
  rcases hp : processList wl.reverse n with _ | q <;> rw [hp] at h
  · simp at h
  · rcases q with ⟨ch, tw, tp, n2⟩
    simp only [Option.some.injEq] at h
    subst h
    obtain ⟨hi1, hi2, hi3⟩ := processList_ids hp
      (fun a ha => hids a (List.mem_reverse.mp ha))
    refine ⟨?_, ?_, ?_⟩
    · intro a ha
      exact List.mem_append.mp ha
    · intro a ha b hb
      have h1 := hi3 a ha
      have h2 : a.id < n := hids a (List.mem_reverse.mp h1)
      have h3 := (hi2 b hb).1
      omega
    · intro a ha
      exact mem_removeByIds ha

/-- Claim C6, witness for the amended theorem: the pool membership of the
new location in the concrete round resolves to the created list. -/
theorem C6_pools_overlap_only_new_locations_witness :
    exC6new ∈ exC6round.declined ∨ exC6new ∈ exC6round.created :=
  (@C6_pools_overlap_only_new_locations [exC6] 1 exC6round
    (by simp [roundStep, processWorklist, processList, AnalyzeAlloca, exC6, exC6gep,
      exC6new, exC6round, isCompositeTy, isSequentialTy, allocSize, allocSizeList,
      isPromotable, isPointerTy, ExtractOffsets, insertOffset, buildPairs, fieldTypeAt,
      concatChildren, gepChildren, isPromotableAlloca, isIntOrIntVectorTy,
      isFPOrFPVectorTy, isPtrOrPtrVectorTy, strictUses, removeByIds, eraseFirstId])
    (by intro a ha; simp only [List.mem_singleton] at ha; subst ha; simp [exC6])).1
    exC6new (by simp [exC6round])

/-- Claim C7, counterexample.  The claim says the Splitter reports a change
only when the function was modified; on the concrete location exC7 the call
returns the change flag true although it creates no location, erases
nothing, redirects nothing and produces no split pair. -/
theorem C7_counterexample_change_reported_without_modification :
    AnalyzeAlloca exC7 0 = some exC7res ∧ exC7res.changed = true ∧
      exC7res.newAllocas = [] ∧ exC7res.splitPairs = [] ∧ exC7res.erased = false ∧
      exC7res.erasedUses = [] := by
  refine ⟨?_, rfl, rfl, rfl, rfl, rfl⟩
  simp [AnalyzeAlloca, exC7, exC7res, isCompositeTy, isSequentialTy, allocSize,
    allocSizeList, isPromotable, ExtractOffsets, buildPairs]

/-- Claim C7, amended.  The change flag returned by the Splitter is true
exactly when the location had no uses (and was erased) or when every guard
and the loose classifier passed (the splitting stage was reached) — even if
that stage then produced no offset group and left the function unmodified. -/
theorem C7_changed_flag_characterization {AI : AllocaInst} {nid : Nat}
    {r : SplitResult} (h : AnalyzeAlloca AI nid = some r) :
    r.changed = true ↔
      (AI.users.isEmpty = true ∨
        (passesSplitGuards AI = true ∧ isPromotable false AI.users = some true)) := by
  simp only [AnalyzeAlloca] at h
  split at h
  · rename_i h1
    simp only [Option.some.injEq] at h
    subst h
    simp [h1]
  · rename_i h1
    split at h
    · rename_i h2
      simp only [Option.some.injEq] at h
      subst h
      simp [passesSplitGuards, h1, h2]
    · rename_i h2
      split at h
      · rename_i h3
        simp only [Option.some.injEq] at h
        subst h
        simp [passesSplitGuards, h1, h2, h3]
      · rename_i h3
        split at h
        · rename_i h4
          simp only [Option.some.injEq] at h
          subst h
          simp [passesSplitGuards, h1, h2, h3, h4]
        · rename_i h4
          rcases hq : isPromotable false AI.users with _ | b <;> rw [hq] at h
          · simp at h
          · cases b with
            | false =>
              simp only [Option.some.injEq] at h
              subst h
              simp [passesSplitGuards, h1, h2, h3, h4, hq]
            | true =>
              simp only [] at h
              rcases he : ExtractOffsets AI.users [] with _ | groups <;> rw [he] at h
              · simp at h
              · simp only [] at h
                rcases hbp : buildPairs AI groups nid with _ | pairs <;> rw [hbp] at h
                · simp at h
                · simp only [Option.some.injEq] at h
                  subst h
                  simp [passesSplitGuards, h1, h2, h3, h4, hq]

/-- Claim C7, witness for the amended theorem at the concrete location exC7. -/
theorem C7_changed_flag_characterization_witness :
    exC7res.changed = true ↔
      (exC7.users.isEmpty = true ∨
        (passesSplitGuards exC7 = true ∧ isPromotable false exC7.users = some true)) :=
  @C7_changed_flag_characterization exC7 0 exC7res
    (by simp [AnalyzeAlloca, exC7, exC7res, isCompositeTy, isSequentialTy, allocSize,
      allocSizeList, isPromotable, ExtractOffsets, buildPairs])

/-- Claim C8, counterexample.  The claim says a redirected constant-index
address computation no longer remains in the function when the split
returns; on the concrete location exC6 the GEP exC6gep is redirected (it is
a member of a split pair) yet the operation erases no user instruction at
all, so the GEP remains in the function. -/
theorem C8_counterexample_redirected_gep_not_erased :
    AnalyzeAlloca exC6 1 = some exC6res ∧
      ((0, [exC6gep]), exC6new) ∈ exC6res.splitPairs ∧
      exC6res.erasedUses = [] ∧ exC6gep ∉ exC6res.erasedUses := by
  refine ⟨?_, ?_, rfl, ?_⟩
  · simp [AnalyzeAlloca, exC6, exC6res, exC6gep, exC6new, isCompositeTy, isSequentialTy,
      allocSize, allocSizeList, isPromotable, isPointerTy, ExtractOffsets, insertOffset,
      buildPairs, fieldTypeAt, concatChildren, gepChildren]
  · simp [exC6res]
  · simp [exC6res]

/-- Claim C8, amended.  The split erases no user instruction (only the
original location is ever erased); each redirected GEP becomes dead instead:
all its users are transferred to the new location of its group, which is
what replaceAllUsesWith leaves behind, and a separate dead-code-elimination
pass outside this repository removes the GEPs later. -/
theorem C8_splitter_erases_only_original_location {AI : AllocaInst} {nid : Nat}
    {r : SplitResult} (h : AnalyzeAlloca AI nid = some r) :
    r.erasedUses = [] ∧ ∀ p ∈ r.splitPairs, p.2.users = concatChildren p.1.2 := by
  simp only [AnalyzeAlloca] at h
  split at h
  · simp only [Option.some.injEq] at h
    subst h
    exact ⟨rfl, fun p hp => by cases hp⟩
  · split at h
    · simp only [Option.some.injEq] at h
      subst h
      exact ⟨rfl, fun p hp => by cases hp⟩
    · split at h
      · simp only [Option.some.injEq] at h
        subst h
        exact ⟨rfl, fun p hp => by cases hp⟩
      · split at h
        · simp only [Option.some.injEq] at h
          subst h
          exact ⟨rfl, fun p hp => by cases hp⟩
        · rcases hq : isPromotable false AI.users with _ | b <;> rw [hq] at h
          · simp at h
          · cases b with
            | false =>
              simp only [Option.some.injEq] at h
              subst h
              exact ⟨rfl, fun p hp => by cases hp⟩
            | true =>
              simp only [] at h
              rcases he : ExtractOffsets AI.users [] with _ | groups <;> rw [he] at h
              · simp at h
              · simp only [] at h
                rcases hbp : buildPairs AI groups nid with _ | pairs <;> rw [hbp] at h
                · simp at h
                · simp only [Option.some.injEq] at h
                  subst h
                  exact ⟨rfl, fun p hp => (buildPairs_users hbp p hp).1⟩

/-- Claim C8, witness for the amended theorem: in the concrete split of
exC6 the new location absorbed the users of the redirected GEP. -/
theorem C8_splitter_erases_only_original_location_witness :
    exC6res.erasedUses = [] ∧ exC6new.users = concatChildren [exC6gep] := by
  have h : AnalyzeAlloca exC6 1 = some exC6res := by
    simp [AnalyzeAlloca, exC6, exC6res, exC6gep, exC6new, isCompositeTy, isSequentialTy,
      allocSize, allocSizeList, isPromotable, isPointerTy, ExtractOffsets, insertOffset,
      buildPairs, fieldTypeAt, concatChildren, gepChildren]
  exact ⟨(C8_splitter_erases_only_original_location h).1,
    (C8_splitter_erases_only_original_location h).2 ((0, [exC6gep]), exC6new)
      (by simp [exC6res])⟩

/-- Claim C9.  The fixpoint driver terminates on every finite input: with
fuel one more than the measure of the initial worklist (the sum over the
worklist of use-count times type-depth), the driver loop always reaches an
outcome, because every round either crashes the run, empties the next-round
list, or strictly decreases the measure (split-created locations have
strictly smaller types than their parent, and promoted locations are
removed). -/
theorem C9_driver_terminates (wl : List AllocaInst) (ch : Bool) (n : Nat) :
    (runDriverFuel (mu wl + 1) ch n wl).isSome = true :=
  runDriverFuel_isSome (by omega)

/-- Claim C10.  The Offset Extractor groups address-computation uses solely
by the constant value of the second index operand: whenever the Splitter
erases the original location, any two GEP users whose second indices are the
same constant (their first indices and everything else arbitrary) end up in
the same offset group, paired with the same single new location. -/
theorem C10_grouping_ignores_first_index {AI : AllocaInst} {nid : Nat}
    {r : SplitResult} {g1 g2 : Use} {rt1 rt2 : LLVMType} {i1 i2 : Operand} {c : Nat}
    {t1 t2 : List Operand} {us1 us2 : List Use}
    (hr : AnalyzeAlloca AI nid = some r) (he : r.erased = true)
    (h1 : g1 = Use.gep rt1 (i1 :: Operand.const c :: t1) us1)
    (h2 : g2 = Use.gep rt2 (i2 :: Operand.const c :: t2) us2)
    (hm1 : g1 ∈ AI.users) (hm2 : g2 ∈ AI.users) :
    ∃ gs na, ((c, gs), na) ∈ r.splitPairs ∧ g1 ∈ gs ∧ g2 ∈ gs := by
  simp only [AnalyzeAlloca] at hr
  split at hr
  · exfalso
    rename_i hemp
    rw [List.isEmpty_iff] at hemp
    rw [hemp] at hm1
    cases hm1
  · split at hr
    · exfalso
      simp only [Option.some.injEq] at hr
      subst hr
      simp at he
    · split at hr
      · exfalso
        simp only [Option.some.injEq] at hr
        subst hr
        simp at he
      · split at hr
        · exfalso
          simp only [Option.some.injEq] at hr
          subst hr
          simp at he
        · rcases hq : isPromotable false AI.users with _ | b <;> rw [hq] at hr
          · simp at hr
          · cases b with
            | false =>
              exfalso
              simp only [Option.some.injEq] at hr
              subst hr
              simp at he
            | true =>
              simp only [] at hr
              rcases hee : ExtractOffsets AI.users [] with _ | groups <;> rw [hee] at hr
              · simp at hr
              · simp only [] at hr
                rcases hbp : buildPairs AI groups nid with _ | pairs <;> rw [hbp] at hr
                · simp at hr
                · simp only [Option.some.injEq] at hr
                  subst hr
                  have hs := ExtractOffsets_sorted hee (by simp [SortedKeys])
                  rcases ExtractOffsets_mem_add hee hm1 h1 with ⟨gsA, hgA, hx1⟩
                  rcases ExtractOffsets_mem_add hee hm2 h2 with ⟨gsB, hgB, hx2⟩
                  have hAB : gsA = gsB := SortedKeys_unique hs hgA hgB
                  subst hAB
                  rcases buildPairs_mem hbp hgA with ⟨na, hna⟩
                  exact ⟨gsA, na, hna, hx1, hx2⟩

/-- Claim C10, witness: in the concrete split of exC10 both GEPs, whose
first indices are zero and seven, are redirected to the single new location
of offset group one. -/
theorem C10_grouping_ignores_first_index_witness :
    ∃ gs na, ((1, gs), na) ∈ exC10res.splitPairs ∧ exC10a ∈ gs ∧ exC10b ∈ gs :=
  @C10_grouping_ignores_first_index exC10 1 exC10res exC10a exC10b
    (LLVMType.ptr (LLVMType.int 32) 0) (LLVMType.ptr (LLVMType.int 32) 0)
    (Operand.const 0) (Operand.const 7) 1 [] []
    [Use.load false] [Use.store false false]
    (by simp [AnalyzeAlloca, exC10, exC10res, exC10a, exC10b, exC10new, isCompositeTy,
      isSequentialTy, seqNumElements, allocSize, allocSizeList, isPromotable,
      isPointerTy, ExtractOffsets, insertOffset, buildPairs, fieldTypeAt,
      concatChildren, gepChildren])
    rfl rfl rfl (by simp [exC10]) (by simp [exC10])

end SROAModel
